import Mathlib

/-!
Verification of the pixelterm image-to-ASCII conversion engine.

The program converts a decoded pixel grid into rows of palette characters,
optionally wrapped in ANSI truecolor escapes.  The repository contains three
variants of the conversion:

* a sequential single-pixel-sample variant taking a `scale` flag
  (`toASCII` / `colorASCII` in the flag-driven sequential file), embedded
  here as `toASCIIseq` built from `cellSingle`;
* a parallel goroutine-per-row variant with block-averaged strided sampling
  (`toASCII` / `colorASCII` in the goroutine file), embedded here as
  `toASCIIpar` / `colorASCIIpar` built from `cellAvg`, with the
  nondeterministic completion order of the row goroutines made explicit as
  an `order : List Nat` argument fed to the index-keyed collection loop;
* a legacy fixed-scale variant whose per-cell formulas coincide with
  `cellSingle` at scale 1/2.

Pixel channels are the 16-bit values returned by Go's `Color.RGBA()`
(0..65535), modelled as `Nat` with the predicate `Img.Valid16`.  The `uint64`
channel sums of the block sampler cannot overflow (each cell samples at most
a handful of points, each at most 65535), so they are modelled as plain `Nat`.
The float64 output-height computation is modelled in exact rational
arithmetic, with the scale factor given as a fraction `num / den`.
-/

/-- One pixel: an (R, G, B) triple as returned by `RGBA()` (alpha ignored). -/
structure Rgb where
  r : Nat
  g : Nat
  b : Nat
deriving DecidableEq, Repr

/-- A decoded pixel grid: dimensions plus a color lookup, exactly the
interface the core consumes (`width()`, `height()`, `colorAt(x, y)`). -/
structure Img where
  width : Nat
  height : Nat
  colorAt : Nat → Nat → Rgb

/-- All channels are in the 16-bit range `RGBA()` guarantees. -/
def Img.Valid16 (img : Img) : Prop :=
  ∀ x y : Nat, (img.colorAt x y).r ≤ 65535 ∧ (img.colorAt x y).g ≤ 65535 ∧
    (img.colorAt x y).b ≤ 65535

/-- The glyph palette `"@%#*+=-:. "`, dark to light, as in every variant. -/
def palette : List Char := ['@', '%', '#', '*', '+', '=', '-', ':', '.', ' ']

/-- `palette[idx]`.  Go would panic out of range; the sentinel '?' (not a
palette character) marks that case, which the in-bounds proofs rule out. -/
def paletteChar (idx : Nat) : Char := palette.getD idx '?'

/-- `gray := (299*r + 587*g + 114*b) / 1000 / 256`, the shared luminance
computation. -/
def grayVal (c : Rgb) : Nat := (299 * c.r + 587 * c.g + 114 * c.b) / 1000 / 256

/-- `charIndex := int(gray) * (len(palette) - 1) / 255`. -/
def charIndexOf (c : Rgb) : Nat := grayVal c * (palette.length - 1) / 255

/-- `height := int(float64(imgHeight) * float64(width) / float64(imgWidth) * scale)`,
then `if height == 0 { height = 1 }`.  The scale factor is the fraction
`num / den` and the computation is exact: `imgHeight * width * num / (imgWidth * den)`
is the floor of the exact rational value the float pipeline approximates. -/
def outHeight (imgWidth imgHeight width num den : Nat) : Nat :=
  let h := imgHeight * width * num / (imgWidth * den)
  if h = 0 then 1 else h

/-- Single-pixel sampling: `img.At(x*imgWidth/width, y*imgHeight/height)`
(sequential variants). -/
def cellSingle (img : Img) (width height x y : Nat) : Rgb :=
  img.colorAt (x * img.width / width) (y * img.height / height)

/-- One output row of the sequential single-pixel `toASCII`. -/
def rowSingle (img : Img) (width height y : Nat) : String :=
  String.mk ((List.range width).map fun x =>
    paletteChar (charIndexOf (cellSingle img width height x y)))

/-- The sequential single-pixel `toASCII(img, width, scale)` with
`scale = num / den`. -/
def toASCIIseq (img : Img) (width num den : Nat) : List String :=
  let height := outHeight img.width img.height width num den
  (List.range height).map fun y => rowSingle img width height y

/-- Horizontal sampling window of an output column:
`imgX := x*imgWidth/width`, `imgXEnd := (x+1)*imgWidth/width` clamped to
`imgWidth`. -/
def winX (img : Img) (width x : Nat) : Nat × Nat :=
  (x * img.width / width, min ((x + 1) * img.width / width) img.width)

/-- Vertical sampling window of an output row, same shape as `winX`. -/
def winY (img : Img) (height y : Nat) : Nat × Nat :=
  (y * img.height / height, min ((y + 1) * img.height / height) img.height)

/-- `stride := extent / 3; if stride < 1 { stride = 1 }`. -/
def strideOf (extent : Nat) : Nat :=
  let s := extent / 3
  if s < 1 then 1 else s

/-- The coordinates visited by `for p := cur; p < stop; p += step`.  The fuel
`stop - cur` bounds the iteration count exactly, because every call site
passes `step ≥ 1` (via `strideOf`), so each iteration advances by at least
one. -/
def samplePointsAux : Nat → Nat → Nat → Nat → List Nat
  | 0, _, _, _ => []
  | fuel + 1, cur, stop, step =>
      if cur < stop then cur :: samplePointsAux fuel (cur + step) stop step else []

/-- The strided loop `for p := start; p < stop; p += step`. -/
def samplePoints (start stop step : Nat) : List Nat :=
  samplePointsAux (stop - start) start stop step

/-- The colors read by the doubly strided sampling loops of one cell
(outer loop over rows `py`, inner over columns `px`).  This sampling code is
textually duplicated between the parallel `toASCII` and `colorASCII`; it is
embedded once. -/
def cellPoints (img : Img) (width height x y : Nat) : List Rgb :=
  let wx := winX img width x
  let wy := winY img height y
  let strideX := strideOf (wx.2 - wx.1)
  let strideY := strideOf (wy.2 - wy.1)
  (samplePoints wy.1 wy.2 strideY).flatMap fun py =>
    (samplePoints wx.1 wx.2 strideX).map fun px => img.colorAt px py

/-- The running channel sums and the sample count of one cell. -/
structure CellSample where
  rSum : Nat
  gSum : Nat
  bSum : Nat
  count : Nat
deriving DecidableEq, Repr

/-- `rSum`, `gSum`, `bSum`, `pixelCount` after the sampling loops. -/
def cellSample (img : Img) (width height x y : Nat) : CellSample :=
  let pts := cellPoints img width height x y
  { rSum := (pts.map Rgb.r).sum
    gSum := (pts.map Rgb.g).sum
    bSum := (pts.map Rgb.b).sum
    count := pts.length }

/-- The averaged cell color: `if pixelCount > 0 { sums /= pixelCount }`.
When the count is zero the sums are left untouched (they are zero). -/
def cellAvg (img : Img) (width height x y : Nat) : Rgb :=
  let s := cellSample img width height x y
  if 0 < s.count then ⟨s.rSum / s.count, s.gSum / s.count, s.bSum / s.count⟩
  else ⟨s.rSum, s.gSum, s.bSum⟩

/-- One output row of the parallel plain `toASCII` (the body of one row
goroutine). -/
def rowBlock (img : Img) (width height y : Nat) : String :=
  String.mk ((List.range width).map fun x =>
    paletteChar (charIndexOf (cellAvg img width height x y)))

/-- `fmt.Sprintf("\x1b[38;2;%d;%d;%dm%c\x1b[0m", r8, g8, b8, char)`. -/
def escCell (r8 g8 b8 : Nat) (ch : Char) : String :=
  "\x1b[38;2;" ++ toString r8 ++ ";" ++ toString g8 ++ ";" ++ toString b8 ++
    "m" ++ String.mk [ch] ++ "\x1b[0m"

/-- One colored cell of the parallel `colorASCII`: the averaged color reduced
to 8 bits per channel (`uint8(sum >> 8)`, the `% 256` being the `uint8`
conversion) wrapped around the glyph chosen from the averaged luminance. -/
def cellColor (img : Img) (width height x y : Nat) : String :=
  let c := cellAvg img width height x y
  escCell ((c.r >>> 8) % 256) ((c.g >>> 8) % 256) ((c.b >>> 8) % 256)
    (paletteChar (charIndexOf c))

/-- One output row of the parallel `colorASCII`. -/
def rowColor (img : Img) (width height y : Nat) : String :=
  String.join ((List.range width).map fun x => cellColor img width height x y)

/-- The fan-in collection loop: results arrive in completion order `order`
and each is written into its row-index slot of the preallocated result
(`result[res.index] = res.line`).  Each row's line is a pure function of its
index. -/
def collectRows (height : Nat) (rowFn : Nat → String) (order : List Nat) : List String :=
  order.foldl (fun acc i => acc.set i (rowFn i)) (List.replicate height "")

/-- The parallel `toASCII(img, width, scale)`; `order` is the completion
order of the row goroutines. -/
def toASCIIpar (img : Img) (width num den : Nat) (order : List Nat) : List String :=
  let height := outHeight img.width img.height width num den
  collectRows height (rowBlock img width height) order

/-- The parallel `colorASCII(img, width, scale)`. -/
def colorASCIIpar (img : Img) (width num den : Nat) (order : List Nat) : List String :=
  let height := outHeight img.width img.height width num den
  collectRows height (rowColor img width height) order

/-- A 2×1 image, left pixel black, right pixel white. -/
def imgBW : Img :=
  ⟨2, 1, fun x _ => if x = 0 then ⟨0, 0, 0⟩ else ⟨65535, 65535, 65535⟩⟩

/-- A 2×2 image whose left column is black and right column white. -/
def imgSplit : Img :=
  ⟨2, 2, fun x _ => if x = 0 then ⟨0, 0, 0⟩ else ⟨65535, 65535, 65535⟩⟩

/-- A 1×1 all-white image. -/
def imgWhite1 : Img := ⟨1, 1, fun _ _ => ⟨65535, 65535, 65535⟩⟩

/-- A 2×2 all-black image. -/
def imgBlack2 : Img := ⟨2, 2, fun _ _ => ⟨0, 0, 0⟩⟩

/-! ## Helper lemmas -/

/-- Every point visited by the strided loop lies in `[cur, stop)`. -/
lemma samplePointsAux_mem {p fuel cur stop step : Nat}
    (h : p ∈ samplePointsAux fuel cur stop step) : cur ≤ p ∧ p < stop := by
  induction fuel generalizing cur with
  | zero => simp [samplePointsAux] at h
  | succ n ih =>
    rw [samplePointsAux] at h
    by_cases hc : cur < stop
    · simp only [if_pos hc, List.mem_cons] at h
      rcases h with rfl | hmem
      · exact ⟨Nat.le_refl _, hc⟩
      · have := ih hmem
        omega
    · simp [if_neg hc] at h

/-- A nonempty loop range visits its start point first. -/
lemma samplePoints_eq_cons {start stop : Nat} (step : Nat) (h : start < stop) :
    samplePoints start stop step =
      start :: samplePointsAux (stop - start - 1) (start + step) stop step := by
  unfold samplePoints
  have hfuel : stop - start = (stop - start - 1) + 1 := by omega
  rw [hfuel, samplePointsAux, if_pos h, Nat.add_sub_cancel]

lemma samplePoints_start_mem {start stop : Nat} (step : Nat) (h : start < stop) :
    start ∈ samplePoints start stop step := by
  rw [samplePoints_eq_cons step h]
  exact List.mem_cons_self _ _

/-- An empty loop range visits nothing. -/
lemma samplePoints_eq_nil {start stop : Nat} (step : Nat) (h : stop ≤ start) :
    samplePoints start stop step = [] := by
  unfold samplePoints
  have hfuel : stop - start = 0 := by omega
  rw [hfuel, samplePointsAux]

/-- Any two sufficient fuels visit the same points, so the bounded embedding
with fuel `stop - start` computes the full loop whenever the step is
positive — which every call site guarantees. -/
lemma samplePointsAux_congr {step : Nat} (hstep : 0 < step) :
    ∀ fuel1 fuel2 cur stop : Nat, stop - cur ≤ fuel1 → stop - cur ≤ fuel2 →
      samplePointsAux fuel1 cur stop step = samplePointsAux fuel2 cur stop step := by
  intro fuel1
  induction fuel1 with
  | zero =>
    intro fuel2 cur stop h1 _
    have hc : ¬ cur < stop := by omega
    cases fuel2 with
    | zero => rfl
    | succ m => rw [samplePointsAux, samplePointsAux, if_neg hc]
  | succ n ih =>
    intro fuel2 cur stop h1 h2
    cases fuel2 with
    | zero =>
      have hc : ¬ cur < stop := by omega
      rw [samplePointsAux, samplePointsAux, if_neg hc]
    | succ m =>
      rw [samplePointsAux, samplePointsAux]
      by_cases hc : cur < stop
      · rw [if_pos hc, if_pos hc,
          ih m (cur + step) stop (by omega) (by omega)]
      · rw [if_neg hc, if_neg hc]

/-- The loop unfolding equation of `samplePoints` for positive steps. -/
lemma samplePoints_unfold {cur stop step : Nat} (hstep : 0 < step) :
    samplePoints cur stop step =
      if cur < stop then cur :: samplePoints (cur + step) stop step else [] := by
  by_cases hc : cur < stop
  · rw [if_pos hc, samplePoints_eq_cons step hc]
    unfold samplePoints
    rw [samplePointsAux_congr hstep (stop - cur - 1) (stop - (cur + step))
      (cur + step) stop (by omega) (by omega)]
  · rw [if_neg hc, samplePoints_eq_nil step (by omega)]

/-- Sum of a constant function over a list. -/
lemma sum_map_of_const {α : Type} (f : α → Nat) (k : Nat) :
    ∀ l : List α, (∀ a ∈ l, f a = k) → (l.map f).sum = l.length * k := by
  intro l
  induction l with
  | nil => intro _; simp
  | cons a t ih =>
    intro h
    have ha := h a (List.mem_cons_self _ _)
    have ht := ih fun b hb => h b (List.mem_cons_of_mem _ hb)
    simp only [List.map_cons, List.sum_cons, List.length_cons, ha, ht]
    ring

/-- Sum bound for a pointwise-bounded function over a list. -/
lemma sum_map_le {α : Type} (f : α → Nat) (k : Nat) :
    ∀ l : List α, (∀ a ∈ l, f a ≤ k) → (l.map f).sum ≤ l.length * k := by
  intro l
  induction l with
  | nil => intro _; simp
  | cons a t ih =>
    intro h
    have ha := h a (List.mem_cons_self _ _)
    have ht := ih fun b hb => h b (List.mem_cons_of_mem _ hb)
    simp only [List.map_cons, List.sum_cons, List.length_cons]
    calc f a + (t.map f).sum ≤ k + t.length * k := Nat.add_le_add ha ht
    _ = (t.length + 1) * k := by ring

/-- Writing rows into index slots never changes the slot count. -/
lemma foldl_set_length (f : Nat → String) :
    ∀ (order : List Nat) (init : List String),
      (order.foldl (fun acc i => acc.set i (f i)) init).length = init.length := by
  intro order
  induction order with
  | nil => intro init; rfl
  | cons a t ih =>
    intro init
    rw [List.foldl_cons, ih, List.length_set]

/-- After the collection fold, a slot holds its row if that row index arrived,
and its initial content otherwise.  Late writes of the same index rewrite the
same value, so arrival order and duplicates are irrelevant. -/
lemma foldl_set_getD (f : Nat → String) :
    ∀ (order : List Nat) (init : List String) (j : Nat), j < init.length →
      (order.foldl (fun acc i => acc.set i (f i)) init).getD j "" =
        if j ∈ order then f j else init.getD j "" := by
  intro order
  induction order with
  | nil => intro init j hj; simp
  | cons a t ih =>
    intro init j hj
    rw [List.foldl_cons, ih (init.set a (f a)) j (by rwa [List.length_set])]
    by_cases hjt : j ∈ t
    · simp [hjt]
    · by_cases haj : a = j
      · subst haj
        rw [if_neg hjt, if_pos (List.mem_cons_self a t),
          List.getD_eq_getElem?_getD, List.getElem?_set_eq_of_lt (f a) hj]
        rfl
      · have hja : ¬ j ∈ a :: t := by
          simp only [List.mem_cons, hjt, or_false]
          exact fun h => haj h.symm
        rw [if_neg hjt, if_neg hja,
          List.getD_eq_getElem?_getD, List.getElem?_set_ne haj,
          ← List.getD_eq_getElem?_getD]

lemma collectRows_length (height : Nat) (f : Nat → String) (order : List Nat) :
    (collectRows height f order).length = height := by
  unfold collectRows
  rw [foldl_set_length, List.length_replicate]

/-- If every row index arrives, the collected result is the in-order row
list, whatever the arrival order. -/
lemma collectRows_eq_map (height : Nat) (f : Nat → String) (order : List Nat)
    (hmem : ∀ j, j < height → j ∈ order) :
    collectRows height f order = (List.range height).map f := by
  apply List.ext_getElem
  · rw [collectRows_length, List.length_map, List.length_range]
  · intro j h1 h2
    have hj : j < height := by rwa [collectRows_length] at h1
    have hinit : j < (List.replicate height ("" : String)).length := by
      rwa [List.length_replicate]
    have := foldl_set_getD f order (List.replicate height "") j hinit
    rw [if_pos (hmem j hj)] at this
    calc (collectRows height f order)[j] = (collectRows height f order).getD j "" :=
          (List.getD_eq_getElem _ _ h1).symm
    _ = f j := this
    _ = ((List.range height).map f)[j] := by
          rw [List.getElem_map, List.getElem_range]

/-- A permutation of the row indices delivers every row index. -/
lemma perm_range_mem {height : Nat} {order : List Nat}
    (h : order.Perm (List.range height)) : ∀ j, j < height → j ∈ order := by
  intro j hj
  exact h.mem_iff.mpr (List.mem_range.mpr hj)

/-! Window geometry -/

/-- Linear-map-and-floor windows are nonempty when the output axis does not
exceed the source axis: `n*H/h < min ((n+1)*H/h) H` for `n < h ≤ H`. -/
lemma div_window_nonempty {n h H : Nat} (hn : n < h) (hH : h ≤ H) :
    n * H / h < min ((n + 1) * H / h) H := by
  have hpos : 0 < h := by omega
  have hHpos : 0 < H := by omega
  rw [lt_min_iff]
  constructor
  · rw [Nat.lt_iff_add_one_le, Nat.le_div_iff_mul_le hpos]
    have h1 : n * H / h * h ≤ n * H := Nat.div_mul_le_self _ _
    have h2 : (n + 1) * H = n * H + H := by ring
    have h3 : (n * H / h + 1) * h = n * H / h * h + h := by ring
    omega
  · rw [Nat.div_lt_iff_lt_mul hpos]
    calc n * H < h * H := Nat.mul_lt_mul_of_lt_of_le hn (Nat.le_refl _) hHpos
    _ = H * h := Nat.mul_comm _ _

/-- When the output height does not exceed the image height, every row's
sampling window is vertically nonempty. -/
lemma winY_nonempty {img : Img} {height y : Nat} (hy : y < height)
    (hh : height ≤ img.height) :
    (winY img height y).1 < (winY img height y).2 :=
  div_window_nonempty hy hh

/-- When the output width does not exceed the image width, every column's
sampling window is horizontally nonempty. -/
lemma winX_nonempty {img : Img} {width x : Nat} (hx : x < width)
    (hw : width ≤ img.width) :
    (winX img width x).1 < (winX img width x).2 :=
  div_window_nonempty hx hw

/-- With both window axes nonempty the top-left sampling point is visited. -/
lemma cellPoints_topLeft_mem {img : Img} {width height x y : Nat}
    (hx : (winX img width x).1 < (winX img width x).2)
    (hy : (winY img height y).1 < (winY img height y).2) :
    img.colorAt (winX img width x).1 (winY img height y).1 ∈
      cellPoints img width height x y := by
  unfold cellPoints
  refine List.mem_flatMap.mpr ⟨(winY img height y).1, samplePoints_start_mem _ hy, ?_⟩
  exact List.mem_map.mpr ⟨(winX img width x).1, samplePoints_start_mem _ hx, rfl⟩

/-- Any sampled color of a uniformly colored image is the uniform color. -/
lemma cellPoints_uniform {img : Img} {c : Rgb} (hc : ∀ x y, img.colorAt x y = c)
    {width height x y : Nat} : ∀ p ∈ cellPoints img width height x y, p = c := by
  intro p hp
  unfold cellPoints at hp
  obtain ⟨py, _, hpmem⟩ := List.mem_flatMap.mp hp
  obtain ⟨px, _, rfl⟩ := List.mem_map.mp hpmem
  exact hc px py

/-- An empty window in either axis means no point is sampled. -/
lemma cellPoints_eq_nil {img : Img} {width height x y : Nat}
    (h : (winX img width x).2 ≤ (winX img width x).1 ∨
      (winY img height y).2 ≤ (winY img height y).1) :
    cellPoints img width height x y = [] := by
  simp only [cellPoints]
  rcases h with hx | hy
  · rw [samplePoints_eq_nil _ hx]
    simp
  · rw [samplePoints_eq_nil _ hy]
    simp

/-- On a uniform image, a cell with a nonempty window averages back to the
uniform color exactly (the integer mean of `n` equal values is that value). -/
lemma cellAvg_uniform {img : Img} {c : Rgb} (hc : ∀ x y, img.colorAt x y = c)
    {width height x y : Nat}
    (hx : (winX img width x).1 < (winX img width x).2)
    (hy : (winY img height y).1 < (winY img height y).2) :
    cellAvg img width height x y = c := by
  have hmem := cellPoints_topLeft_mem hx hy
  have huni := @cellPoints_uniform img c hc width height x y
  set pts := cellPoints img width height x y with hpts
  have hlen : 0 < pts.length := List.length_pos.mpr (List.ne_nil_of_mem hmem)
  have hr : (pts.map Rgb.r).sum = pts.length * c.r :=
    sum_map_of_const _ _ _ fun p hp => by rw [huni p hp]
  have hg : (pts.map Rgb.g).sum = pts.length * c.g :=
    sum_map_of_const _ _ _ fun p hp => by rw [huni p hp]
  have hb : (pts.map Rgb.b).sum = pts.length * c.b :=
    sum_map_of_const _ _ _ fun p hp => by rw [huni p hp]
  unfold cellAvg cellSample
  rw [← hpts]
  simp only [hr, hg, hb, if_pos hlen]
  have := Nat.pos_iff_ne_zero.mp hlen
  cases c with
  | mk r g b =>
    congr 1 <;> exact Nat.mul_div_cancel_left _ hlen

/-! Channel bounds -/

/-- The averaged cell color stays within the 16-bit channel range. -/
lemma cellAvg_le {img : Img} (h16 : img.Valid16) (width height x y : Nat) :
    (cellAvg img width height x y).r ≤ 65535 ∧
    (cellAvg img width height x y).g ≤ 65535 ∧
    (cellAvg img width height x y).b ≤ 65535 := by
  have hbound : ∀ p ∈ cellPoints img width height x y,
      p.r ≤ 65535 ∧ p.g ≤ 65535 ∧ p.b ≤ 65535 := by
    intro p hp
    unfold cellPoints at hp
    obtain ⟨py, _, hpmem⟩ := List.mem_flatMap.mp hp
    obtain ⟨px, _, rfl⟩ := List.mem_map.mp hpmem
    exact h16 px py
  set pts := cellPoints img width height x y with hpts
  have div_le : ∀ s : Nat, s ≤ pts.length * 65535 → 0 < pts.length →
      s / pts.length ≤ 65535 := by
    intro s hs hlen
    calc s / pts.length ≤ pts.length * 65535 / pts.length := Nat.div_le_div_right hs
    _ = 65535 := Nat.mul_div_cancel_left _ hlen
  unfold cellAvg cellSample
  rw [← hpts]
  by_cases hlen : 0 < pts.length
  · simp only [if_pos hlen]
    refine ⟨div_le _ (sum_map_le _ _ _ fun p hp => (hbound p hp).1) hlen,
      div_le _ (sum_map_le _ _ _ fun p hp => (hbound p hp).2.1) hlen,
      div_le _ (sum_map_le _ _ _ fun p hp => (hbound p hp).2.2) hlen⟩
  · have : pts = [] := List.length_eq_zero.mp (by omega)
    simp [if_neg hlen, this]

/-- 16-bit channels give an 8-bit luminance: the weights sum to exactly 1000,
so `gray ≤ 65535000 / 1000 / 256 = 255` with no defensive clamp needed. -/
lemma grayVal_le {c : Rgb} (hr : c.r ≤ 65535) (hg : c.g ≤ 65535)
    (hb : c.b ≤ 65535) : grayVal c ≤ 255 := by
  unfold grayVal
  have h1 : 299 * c.r + 587 * c.g + 114 * c.b ≤ 65535000 := by omega
  calc (299 * c.r + 587 * c.g + 114 * c.b) / 1000 / 256
      ≤ 65535000 / 1000 / 256 :=
        Nat.div_le_div_right (Nat.div_le_div_right h1)
  _ = 255 := by norm_num

/-- A luminance of at most 255 maps into the palette: `gray * 9 / 255 ≤ 9`. -/
lemma charIndexOf_le {c : Rgb} (h : grayVal c ≤ 255) :
    charIndexOf c ≤ palette.length - 1 := by
  unfold charIndexOf
  have h9 : palette.length - 1 = 9 := by decide
  rw [h9]
  calc grayVal c * 9 / 255 ≤ 255 * 9 / 255 :=
        Nat.div_le_div_right (Nat.mul_le_mul_right _ h)
  _ = 9 := by norm_num

/-- In-bounds palette indices select genuine palette characters. -/
lemma paletteChar_mem {idx : Nat} (h : idx ≤ palette.length - 1) :
    paletteChar idx ∈ palette := by
  have hlt : idx < palette.length := by
    have : palette.length = 10 := by decide
    omega
  unfold paletteChar
  rw [List.getD_eq_getElem _ _ hlt]
  exact List.getElem_mem hlt

/-! ## Claims -/

/-- C1 counterexample: on the 2×1 black/white image with output width 1 and
scale 1, the sequential single-pixel variant emits the darkest glyph (it reads
only the black top-left pixel) while the parallel block-averaging variant
averages black and white to a mid-gray glyph, so the two variants are not
byte-identical. -/
theorem claim1_counterexample :
    toASCIIseq imgBW 1 1 1 = ["@"] ∧
    toASCIIpar imgBW 1 1 1 (List.range 1) = ["+"] ∧
    toASCIIpar imgBW 1 1 1 (List.range 1) ≠ toASCIIseq imgBW 1 1 1 := by
  refine ⟨by decide, by decide, by decide⟩

/-- C1 (amended): for every pixel grid and configuration, the parallel
plain-mode conversion returns the same list of row strings for every
goroutine completion order, namely the in-order sequential assembly of its
own block-averaging row computation; parallel scheduling is never an
observable behavior change.  (It does not coincide with the sequential
single-pixel variant, which samples differently.) -/
theorem claim1_parallel_unobservable (img : Img) (width num den : Nat)
    (order : List Nat)
    (hperm : order.Perm (List.range (outHeight img.width img.height width num den))) :
    toASCIIpar img width num den order =
      (List.range (outHeight img.width img.height width num den)).map
        (rowBlock img width (outHeight img.width img.height width num den)) := by
  unfold toASCIIpar
  exact collectRows_eq_map _ _ _ (perm_range_mem hperm)

/-- C1 witness: the amended theorem applied to the 2×1 image. -/
theorem claim1_witness :
    toASCIIpar imgBW 1 1 1 (List.range 1) =
      (List.range (outHeight imgBW.width imgBW.height 1 1 1)).map
        (rowBlock imgBW 1 (outHeight imgBW.width imgBW.height 1 1 1)) :=
  claim1_parallel_unobservable imgBW 1 1 1 (List.range 1) (List.Perm.refl _)

/-- C2 counterexample: the 1×1 white image with output width 2 and scale 1 is
a valid input (positive width, positive scale, non-empty image), yet output
cell (0,0) has an empty sampling window and samples no point at all: its
sample count is 0, not at least 1. -/
theorem claim2_counterexample :
    0 < imgWhite1.width ∧ 0 < imgWhite1.height ∧
    outHeight imgWhite1.width imgWhite1.height 2 1 1 = 2 ∧
    (cellSample imgWhite1 2 2 0 0).count = 0 := by
  refine ⟨by decide, by decide, by decide, by decide⟩

/-- C2 (amended): whenever a cell's sampling window is non-empty in both
axes, the window's top-left point is sampled and the sample count is at
least 1.  (When the window is empty the count is 0, and the arithmetic-mean
step is skipped by the `pixelCount > 0` guard, so no division by zero occurs
in either case.) -/
theorem claim2_nonempty_window_samples (img : Img) (width height x y : Nat)
    (hx : (winX img width x).1 < (winX img width x).2)
    (hy : (winY img height y).1 < (winY img height y).2) :
    img.colorAt (winX img width x).1 (winY img height y).1 ∈
      cellPoints img width height x y ∧
    1 ≤ (cellSample img width height x y).count := by
  have hmem := cellPoints_topLeft_mem hx hy
  refine ⟨hmem, ?_⟩
  show 1 ≤ (cellPoints img width height x y).length
  exact List.length_pos.mpr (List.ne_nil_of_mem hmem)

/-- C2 witness: cell (0,0) of the 2×2 black image at output size 2×2 has a
nonempty window and a positive sample count. -/
theorem claim2_witness :
    imgBlack2.colorAt (winX imgBlack2 2 0).1 (winY imgBlack2 2 0).1 ∈
      cellPoints imgBlack2 2 2 0 0 ∧
    1 ≤ (cellSample imgBlack2 2 2 0 0).count :=
  claim2_nonempty_window_samples imgBlack2 2 2 0 0 (by decide) (by decide)

/-- C3: for every valid 16-bit image and every completion order, the parallel
plain conversion returns exactly `H_out` rows of exactly `W_out` palette
characters each, and the parallel color conversion returns exactly `H_out`
rows, each the concatenation of exactly `W_out` escape-wrapped palette
characters. -/
theorem claim3_shape (img : Img) (width num den : Nat) (order : List Nat)
    (h16 : img.Valid16)
    (hperm : order.Perm (List.range (outHeight img.width img.height width num den))) :
    (toASCIIpar img width num den order).length =
      outHeight img.width img.height width num den ∧
    (∀ row ∈ toASCIIpar img width num den order,
      row.length = width ∧ ∀ ch ∈ row.data, ch ∈ palette) ∧
    (colorASCIIpar img width num den order).length =
      outHeight img.width img.height width num den ∧
    (∀ row ∈ colorASCIIpar img width num den order, ∃ cells : List String,
      row = String.join cells ∧ cells.length = width ∧
      ∀ s ∈ cells, ∃ r8 g8 b8 : Nat, ∃ ch ∈ palette, s = escCell r8 g8 b8 ch) := by
  have hmem := perm_range_mem hperm
  have hidx : ∀ x y : Nat,
      charIndexOf (cellAvg img width (outHeight img.width img.height width num den) x y) ≤
        palette.length - 1 := by
    intro x y
    obtain ⟨hr, hg, hb⟩ := cellAvg_le h16 width _ x y
    exact charIndexOf_le (grayVal_le hr hg hb)
  refine ⟨?_, ?_, ?_, ?_⟩
  · exact collectRows_length _ _ _
  · intro row hrow
    unfold toASCIIpar at hrow
    rw [collectRows_eq_map _ _ _ hmem] at hrow
    obtain ⟨y, _, rfl⟩ := List.mem_map.mp hrow
    constructor
    · show (String.mk _).length = width
      simp [String.length]
    · intro ch hch
      have hch2 : ch ∈ (List.range width).map (fun x =>
          paletteChar (charIndexOf
            (cellAvg img width (outHeight img.width img.height width num den) x y))) := hch
      obtain ⟨x, _, rfl⟩ := List.mem_map.mp hch2
      exact paletteChar_mem (hidx x y)
  · exact collectRows_length _ _ _
  · intro row hrow
    unfold colorASCIIpar at hrow
    rw [collectRows_eq_map _ _ _ hmem] at hrow
    obtain ⟨y, _, rfl⟩ := List.mem_map.mp hrow
    refine ⟨(List.range width).map
      (fun x => cellColor img width (outHeight img.width img.height width num den) x y),
      rfl, by simp, ?_⟩
    intro s hs
    obtain ⟨x, _, rfl⟩ := List.mem_map.mp hs
    exact ⟨_, _, _, paletteChar (charIndexOf (cellAvg img width _ x y)),
      paletteChar_mem (hidx x y), rfl⟩

/-- C3 witness: the shape theorem applied to the 2×2 black image at width 2,
scale 1/2, with the in-order schedule. -/
theorem claim3_witness :
    (toASCIIpar imgBlack2 2 1 2 (List.range 1)).length =
      outHeight imgBlack2.width imgBlack2.height 2 1 2 ∧
    (∀ row ∈ toASCIIpar imgBlack2 2 1 2 (List.range 1),
      row.length = 2 ∧ ∀ ch ∈ row.data, ch ∈ palette) ∧
    (colorASCIIpar imgBlack2 2 1 2 (List.range 1)).length =
      outHeight imgBlack2.width imgBlack2.height 2 1 2 ∧
    (∀ row ∈ colorASCIIpar imgBlack2 2 1 2 (List.range 1), ∃ cells : List String,
      row = String.join cells ∧ cells.length = 2 ∧
      ∀ s ∈ cells, ∃ r8 g8 b8 : Nat, ∃ ch ∈ palette, s = escCell r8 g8 b8 ch) :=
  claim3_shape imgBlack2 2 1 2 (List.range 1)
    (fun _ _ => ⟨Nat.zero_le _, Nat.zero_le _, Nat.zero_le _⟩) (List.Perm.refl _)

/-- C4: for positive source dimensions, output width and scale `num/den`,
the computed output height is the floor of `H * W_out / W * s` clamped from
0 up to 1, it is always at least 1, and neither conversion ever returns an
empty output. -/
theorem claim4_height (img : Img) (width num den : Nat) (order : List Nat)
    (hW : 0 < img.width) (hH : 0 < img.height) (hw : 0 < width)
    (hnum : 0 < num) (hden : 0 < den) :
    outHeight img.width img.height width num den =
      (if ⌊(img.height : ℚ) * width / img.width * ((num : ℚ) / den)⌋₊ = 0 then 1
       else ⌊(img.height : ℚ) * width / img.width * ((num : ℚ) / den)⌋₊) ∧
    1 ≤ outHeight img.width img.height width num den ∧
    toASCIIseq img width num den ≠ [] ∧
    toASCIIpar img width num den order ≠ [] := by
  have hW' : ((img.width : ℚ)) ≠ 0 := Nat.cast_ne_zero.mpr (by omega)
  have hden' : ((den : ℚ)) ≠ 0 := Nat.cast_ne_zero.mpr (by omega)
  have hcast : (img.height : ℚ) * width / img.width * ((num : ℚ) / den) =
      ((img.height * width * num : ℕ) : ℚ) / ((img.width * den : ℕ) : ℚ) := by
    push_cast
    field_simp
  have key : ⌊(img.height : ℚ) * width / img.width * ((num : ℚ) / den)⌋₊ =
      img.height * width * num / (img.width * den) := by
    rw [hcast, Nat.floor_div_nat, Nat.floor_natCast]
  have hpos : 1 ≤ outHeight img.width img.height width num den := by
    simp only [outHeight]
    split
    · exact Nat.le_refl 1
    · omega
  refine ⟨?_, hpos, ?_, ?_⟩
  · simp only [outHeight, key]
  · have hlen : 0 < (toASCIIseq img width num den).length := by
      show 0 < ((List.range _).map _).length
      simpa using hpos
    exact List.length_pos.mp hlen
  · have hlen : 0 < (toASCIIpar img width num den order).length := by
      show 0 < (collectRows _ _ _).length
      rw [collectRows_length]
      omega
    exact List.length_pos.mp hlen

/-- C4 witness: the 2×1 image at output width 1 and scale 1 — the raw floored
height is 0 and is clamped to 1, and no output is empty. -/
theorem claim4_witness :
    outHeight imgBW.width imgBW.height 1 1 1 =
      (if ⌊(imgBW.height : ℚ) * 1 / imgBW.width * ((1 : ℚ) / 1)⌋₊ = 0 then 1
       else ⌊(imgBW.height : ℚ) * 1 / imgBW.width * ((1 : ℚ) / 1)⌋₊) ∧
    1 ≤ outHeight imgBW.width imgBW.height 1 1 1 ∧
    toASCIIseq imgBW 1 1 1 ≠ [] ∧
    toASCIIpar imgBW 1 1 1 (List.range 1) ≠ [] :=
  claim4_height imgBW 1 1 1 (List.range 1) (by decide) (by decide) (by decide)
    (by decide) (by decide)

/-- C5 counterexample: the 1×1 all-white image at output width 2 and scale 1
(a valid configuration, output 2×2) maps cell (0,0) — whose sampling window
is empty — to palette index 0 and cell (1,1) to index 9, so a uniformly
colored image does not always yield a uniform glyph index in the
block-averaging variant. -/
theorem claim5_counterexample :
    (∀ x y, imgWhite1.colorAt x y = ⟨65535, 65535, 65535⟩) ∧
    outHeight imgWhite1.width imgWhite1.height 2 1 1 = 2 ∧
    charIndexOf (cellAvg imgWhite1 2 2 0 0) ≠ charIndexOf (cellAvg imgWhite1 2 2 1 1) :=
  ⟨fun _ _ => rfl, by decide, by decide⟩

/-- C5 (amended): for a uniformly colored image, every output cell maps to
the same glyph-palette index — in the block-averaging variant provided the
output dimensions do not exceed the source dimensions (so no sampling window
is empty), and in the single-pixel variant unconditionally. -/
theorem claim5_uniform (img : Img) (c : Rgb) (hc : ∀ x y, img.colorAt x y = c)
    (width : Nat) :
    (∀ height x y x2 y2, width ≤ img.width → height ≤ img.height →
      x < width → y < height → x2 < width → y2 < height →
      charIndexOf (cellAvg img width height x y) =
        charIndexOf (cellAvg img width height x2 y2)) ∧
    (∀ height x y x2 y2,
      charIndexOf (cellSingle img width height x y) =
        charIndexOf (cellSingle img width height x2 y2)) := by
  constructor
  · intro height x y x2 y2 hw hh hx hy hx2 hy2
    rw [cellAvg_uniform hc (winX_nonempty hx hw) (winY_nonempty hy hh),
      cellAvg_uniform hc (winX_nonempty hx2 hw) (winY_nonempty hy2 hh)]
  · intro height x y x2 y2
    unfold cellSingle
    rw [hc, hc]

/-- C5 witness: on the 2×2 black image at output size 2×2, cells (0,0) and
(1,1) share their glyph index. -/
theorem claim5_witness :
    charIndexOf (cellAvg imgBlack2 2 2 0 0) = charIndexOf (cellAvg imgBlack2 2 2 1 1) :=
  (claim5_uniform imgBlack2 ⟨0, 0, 0⟩ (fun _ _ => rfl) 2).1 2 0 0 1 1
    (Nat.le_refl 2) (Nat.le_refl 2) (by decide) (by decide) (by decide) (by decide)

/-- C6: in color mode, every cell's emitted escape sequence embeds exactly
the averaged channel values right-shifted by 8 (the `uint8` conversion
truncates nothing for 16-bit channels), and every cell's string ends with the
reset sequence `ESC[0m`. -/
theorem claim6_color_cell (img : Img) (h16 : img.Valid16) (width height x y : Nat) :
    cellColor img width height x y =
      escCell ((cellAvg img width height x y).r >>> 8)
        ((cellAvg img width height x y).g >>> 8)
        ((cellAvg img width height x y).b >>> 8)
        (paletteChar (charIndexOf (cellAvg img width height x y))) ∧
    ∃ p : String, cellColor img width height x y = p ++ "\x1b[0m" := by
  obtain ⟨hr, hg, hb⟩ := cellAvg_le h16 width height x y
  have hmod : ∀ v : Nat, v ≤ 65535 → (v >>> 8) % 256 = v >>> 8 := by
    intro v hv
    apply Nat.mod_eq_of_lt
    rw [Nat.shiftRight_eq_div_pow]
    have h8 : (2 : Nat) ^ 8 = 256 := by norm_num
    rw [h8, Nat.div_lt_iff_lt_mul (by norm_num : 0 < 256)]
    omega
  constructor
  · simp only [cellColor]
    rw [hmod _ hr, hmod _ hg, hmod _ hb]
  · exact ⟨_, rfl⟩

/-- C6 witness: the color-cell theorem applied to cell (0,0) of the 2×2 black
image. -/
theorem claim6_witness :
    cellColor imgBlack2 2 1 0 0 =
      escCell ((cellAvg imgBlack2 2 1 0 0).r >>> 8)
        ((cellAvg imgBlack2 2 1 0 0).g >>> 8)
        ((cellAvg imgBlack2 2 1 0 0).b >>> 8)
        (paletteChar (charIndexOf (cellAvg imgBlack2 2 1 0 0))) ∧
    ∃ p : String, cellColor imgBlack2 2 1 0 0 = p ++ "\x1b[0m" :=
  claim6_color_cell imgBlack2
    (fun _ _ => ⟨Nat.zero_le _, Nat.zero_le _, Nat.zero_le _⟩) 2 1 0 0

/-- C7 counterexample: with the default scale 0.15 = 3/20, the cited
block-averaging variant converts the left-black/right-white 2×2 image at
width 4 to "@@@ ", not "@@  " — output cells 0 and 2 have empty sampling
windows (output width 4 exceeds image width 2) and fall back to the darkest
glyph. -/
theorem claim7_counterexample :
    outHeight imgSplit.width imgSplit.height 4 3 20 = 1 ∧
    toASCIIpar imgSplit 4 3 20 (List.range 1) ≠ ["@@  "] := by
  refine ⟨by decide, by decide⟩

/-- C7 (amended): converting the 2×2 left-black/right-white image with output
width 4 and scale 3/20 in plain mode yields exactly one row: "@@  " in the
sequential single-pixel variant, but "@@@ " in the block-averaging parallel
variant. -/
theorem claim7_split_example :
    toASCIIseq imgSplit 4 3 20 = ["@@  "] ∧
    toASCIIpar imgSplit 4 3 20 (List.range 1) = ["@@@ "] := by
  refine ⟨by decide, by decide⟩

/-- C8: the conversion is deterministic — any two goroutine completion
orders (any two permutations of the row indices) produce byte-identical
results, in both the plain and the color parallel variants.  (The sequential
variants are pure functions of their arguments, so their determinism is
definitional.) -/
theorem claim8_deterministic (img : Img) (width num den : Nat) (o1 o2 : List Nat)
    (h1 : o1.Perm (List.range (outHeight img.width img.height width num den)))
    (h2 : o2.Perm (List.range (outHeight img.width img.height width num den))) :
    toASCIIpar img width num den o1 = toASCIIpar img width num den o2 ∧
    colorASCIIpar img width num den o1 = colorASCIIpar img width num den o2 := by
  constructor
  · unfold toASCIIpar
    rw [collectRows_eq_map _ _ _ (perm_range_mem h1),
      collectRows_eq_map _ _ _ (perm_range_mem h2)]
  · unfold colorASCIIpar
    rw [collectRows_eq_map _ _ _ (perm_range_mem h1),
      collectRows_eq_map _ _ _ (perm_range_mem h2)]

/-- C8 witness: on the 1×1 white image with output height 2, the reversed
completion order [1, 0] and the in-order schedule [0, 1] give identical
output. -/
theorem claim8_witness :
    toASCIIpar imgWhite1 2 1 1 [1, 0] = toASCIIpar imgWhite1 2 1 1 [0, 1] ∧
    colorASCIIpar imgWhite1 2 1 1 [1, 0] = colorASCIIpar imgWhite1 2 1 1 [0, 1] :=
  claim8_deterministic imgWhite1 2 1 1 [1, 0] [0, 1]
    (List.Perm.swap 0 1 []) (List.Perm.refl _)

/-- C9: for every cell of a 16-bit-valid image, the luminance never exceeds
255 (the weights 299, 587, 114 sum to exactly 1000 and each channel is at
most 65535), so the palette index `gray * (len - 1) / 255` is strictly below
the palette length in both the block-averaging and the single-pixel
variants — indexing never goes out of bounds despite the absence of a
defensive clamp. -/
theorem claim9_index_bounds (img : Img) (h16 : img.Valid16) (width height x y : Nat) :
    grayVal (cellAvg img width height x y) ≤ 255 ∧
    charIndexOf (cellAvg img width height x y) < palette.length ∧
    grayVal (cellSingle img width height x y) ≤ 255 ∧
    charIndexOf (cellSingle img width height x y) < palette.length := by
  obtain ⟨hr, hg, hb⟩ := cellAvg_le h16 width height x y
  have h1 := grayVal_le hr hg hb
  obtain ⟨hr2, hg2, hb2⟩ := h16 (x * img.width / width) (y * img.height / height)
  have h2 : grayVal (cellSingle img width height x y) ≤ 255 := grayVal_le hr2 hg2 hb2
  have hlen : palette.length = 10 := by decide
  have i1 := charIndexOf_le h1
  have i2 := charIndexOf_le h2
  exact ⟨h1, by omega, h2, by omega⟩

/-- C9 witness: the bounds theorem applied to the all-white 1×1 image, whose
channels sit exactly at the 16-bit maximum. -/
theorem claim9_witness :
    grayVal (cellAvg imgWhite1 1 1 0 0) ≤ 255 ∧
    charIndexOf (cellAvg imgWhite1 1 1 0 0) < palette.length ∧
    grayVal (cellSingle imgWhite1 1 1 0 0) ≤ 255 ∧
    charIndexOf (cellSingle imgWhite1 1 1 0 0) < palette.length :=
  claim9_index_bounds imgWhite1
    (fun _ _ => ⟨Nat.le_refl _, Nat.le_refl _, Nat.le_refl _⟩) 1 1 0 0

/-- C10: a cell whose sampling window is empty in some axis samples nothing:
the count and all channel sums stay 0, the computed luminance is 0, the
plain glyph is the darkest '@', and the color cell embeds 0;0;0 — the
conversion degrades instead of failing. -/
theorem claim10_empty_window (img : Img) (width height x y : Nat)
    (h : (winX img width x).2 ≤ (winX img width x).1 ∨
      (winY img height y).2 ≤ (winY img height y).1) :
    (cellSample img width height x y).count = 0 ∧
    (cellSample img width height x y).rSum = 0 ∧
    (cellSample img width height x y).gSum = 0 ∧
    (cellSample img width height x y).bSum = 0 ∧
    grayVal (cellAvg img width height x y) = 0 ∧
    paletteChar (charIndexOf (cellAvg img width height x y)) = '@' ∧
    cellColor img width height x y = escCell 0 0 0 '@' := by
  have hnil := cellPoints_eq_nil h
  have hcs : cellSample img width height x y = ⟨0, 0, 0, 0⟩ := by
    simp [cellSample, hnil]
  have hav : cellAvg img width height x y = ⟨0, 0, 0⟩ := by
    simp [cellAvg, hcs]
  refine ⟨by simp [hcs], by simp [hcs], by simp [hcs], by simp [hcs], ?_, ?_, ?_⟩
  · rw [hav]
    decide
  · rw [hav]
    decide
  · simp only [cellColor, hav]
    decide

/-- C10 witness: cell (0,0) of the 1×1 white image at output size 2×2 has an
empty horizontal window and degrades to a black '@' cell. -/
theorem claim10_witness :
    (cellSample imgWhite1 2 2 0 0).count = 0 ∧
    (cellSample imgWhite1 2 2 0 0).rSum = 0 ∧
    (cellSample imgWhite1 2 2 0 0).gSum = 0 ∧
    (cellSample imgWhite1 2 2 0 0).bSum = 0 ∧
    grayVal (cellAvg imgWhite1 2 2 0 0) = 0 ∧
    paletteChar (charIndexOf (cellAvg imgWhite1 2 2 0 0)) = '@' ∧
    cellColor imgWhite1 2 2 0 0 = escCell 0 0 0 '@' :=
  claim10_empty_window imgWhite1 2 2 0 0 (Or.inl (by decide))
